import Mathlib

/-!
Verification development for the tag/rule utilities of `github-tag-action`
(`src/utils.ts`).

Modelling conventions:
- JavaScript strings are modelled as `List Char` (`Str`); all string
  operations used by the source (`split`, `length`, `toLowerCase`,
  concatenation) become the corresponding list operations.
- The caller-supplied `prefixRegex` is only ever used through
  `name.replace(prefixRegex, '')`; that whole operation is modelled as an
  abstract stripping function `strip : Str → Str`.
- The `semver` library functions used by the source (`valid`, `prerelease`,
  `rcompare`) are ported from node-semver's strict grammar and comparison
  algorithm (optional leading `v`, 256-char limit, `2^53 - 1` numeric limit,
  numeric prerelease identifiers compared numerically, build metadata
  accepted but ignored by comparison).
- `Array.prototype.sort` (stable, comparator-driven) is modelled by
  `List.mergeSort` with `le a b := cmp a b ≠ .gt`.
- The diagnostic sinks `core.debug` / `core.warning` are modelled by a pure
  log: each call site becomes a constructor of `LogMsg` carrying the data
  interpolated into the message.
-/

/-- JavaScript strings are modelled as lists of characters. -/
abbrev Str := List Char

/-- `dropLit pat s` returns `some rest` exactly when `s = pat ++ rest`:
the literal-prefix matcher used to give semantics to anchored literal
regex fragments. -/
def dropLit : Str → Str → Option Str
  | [], s => some s
  | _ :: _, [] => none
  | c :: cs, d :: ds => if c = d then dropLit cs ds else none

/-- Substring test: `isSub pat s` holds when `pat` occurs contiguously in
`s`. This models an unanchored JavaScript regex match of a literal
pattern, as in `String.prototype.match(identifier)`. -/
def isSub (pat : Str) : Str → Bool
  | [] => (dropLit pat []).isSome
  | c :: rest => (dropLit pat (c :: rest)).isSome || isSub pat rest

/-- `String.prototype.toLowerCase`, restricted to the ASCII range (the
commit types the defaults table is keyed by are ASCII). -/
def lowerStr (s : Str) : Str := s.map Char.toLower

/-- Semver prerelease identifier: node-semver stores an all-digit
identifier below `2^53 - 1` as a number and everything else as a string,
and compares numbers before strings. -/
inductive PreId where
  | num (n : Nat)
  | str (s : Str)
deriving DecidableEq

/-- A parsed semantic version. Build metadata is validated by the parser
but not retained, exactly as node-semver ignores it for comparison. -/
structure Semver where
  major : Nat
  minor : Nat
  patch : Nat
  pre : List PreId
deriving DecidableEq

/-- `Number.MAX_SAFE_INTEGER`. -/
def maxSafeInteger : Nat := 2 ^ 53 - 1

/-- Digits of a numeric identifier interpreted as a `Nat`. -/
def digitsToNat (s : Str) : Nat :=
  s.foldl (fun acc c => acc * 10 + (c.toNat - 48)) 0

/-- `0|[1-9]\d*`: a numeric identifier with no leading zero. -/
def isNumericId (s : Str) : Bool :=
  s.all Char.isDigit && !s.isEmpty && (s.head? ≠ some '0' || s.length == 1)

/-- Characters allowed in prerelease/build identifiers: `[0-9A-Za-z-]`. -/
def isIdChar (c : Char) : Bool :=
  c.isDigit || ('a' ≤ c && c ≤ 'z') || ('A' ≤ c && c ≤ 'Z') || c = '-'

/-- `0|[1-9]\d*|\d*[a-zA-Z-][a-zA-Z0-9-]*`: a legal prerelease identifier
under the strict grammar. -/
def isPreIdStr (s : Str) : Bool :=
  !s.isEmpty && s.all isIdChar && (isNumericId s || !s.all Char.isDigit)

/-- `[0-9A-Za-z-]+`: a legal build identifier. -/
def isBuildIdStr (s : Str) : Bool :=
  !s.isEmpty && s.all isIdChar

/-- Classification of a (grammar-valid) prerelease identifier, following
node-semver's parse step: all-digit identifiers strictly below
`MAX_SAFE_INTEGER` become numbers, everything else stays a string. -/
def mkPreId (s : Str) : PreId :=
  if s.all Char.isDigit && digitsToNat s < maxSafeInteger then .num (digitsToNat s)
  else .str s

/-- Parse a `major`/`minor`/`patch` component: numeric, no leading zero,
at most `MAX_SAFE_INTEGER` (node-semver throws above that, which `parse`
turns into `null`). -/
def parseMainNum (s : Str) : Option Nat :=
  if isNumericId s && digitsToNat s ≤ maxSafeInteger then some (digitsToNat s)
  else none

/-- Split `s` at the first occurrence of `sep` into `(before, some after)`,
or `(s, none)` when `sep` does not occur. -/
def splitFirst (sep : Char) : Str → Str × Option Str
  | [] => ([], none)
  | c :: rest =>
    if c = sep then ([], some rest)
    else
      let (pre, post) := splitFirst sep rest
      (c :: pre, post)

/-- Parse the `major.minor.patch` core. -/
def parseMainVersion (s : Str) : Option (Nat × Nat × Nat) :=
  match s.splitOn '.' with
  | [ma, mi, pa] =>
    match parseMainNum ma, parseMainNum mi, parseMainNum pa with
    | some a, some b, some c => some (a, b, c)
    | _, _, _ => none
  | _ => none

/-- Parse a dot-separated prerelease suffix. -/
def parsePre (s : Str) : Option (List PreId) :=
  let ids := s.splitOn '.'
  if ids.all isPreIdStr then some (ids.map mkPreId) else none

/-- Validate a dot-separated build suffix (contents are discarded). -/
def parseBuild (s : Str) : Bool :=
  (s.splitOn '.').all isBuildIdStr

/-- node-semver's strict parser (`parse` / the `SemVer` constructor):
at most 256 characters, optional leading `v`, `major.minor.patch`,
optional `-prerelease`, optional `+build`. Returns `none` where the
library returns `null` (or throws inside `parse`, which `valid` treats
the same way). -/
def parseSemver (s : Str) : Option Semver :=
  if s.length > 256 then none
  else
    let s := match s with
      | 'v' :: rest => rest
      | other => other
    let (core, build) := splitFirst '+' s
    let (mmp, pre) := splitFirst '-' core
    match parseMainVersion mmp with
    | none => none
    | some (ma, mi, pa) =>
      let preIds : Option (List PreId) :=
        match pre with
        | none => some []
        | some p => parsePre p
      match preIds with
      | none => none
      | some ids =>
        match build with
        | none => some ⟨ma, mi, pa, ids⟩
        | some b => if parseBuild b then some ⟨ma, mi, pa, ids⟩ else none

/-- `semver.valid(x)` is truthy exactly when the strict parse succeeds. -/
def validSemver (s : Str) : Bool := (parseSemver s).isSome

/-- `semver.prerelease(x)` is truthy exactly when `x` parses and its
prerelease component is nonempty. -/
def hasPre (s : Str) : Bool :=
  match parseSemver s with
  | some v => !v.pre.isEmpty
  | none => false

/-- Comparison of two characters by code unit, as JavaScript compares
strings. -/
def cmpChar (a b : Char) : Ordering := compare a.toNat b.toNat

/-- Lexicographic comparison of two sequences by an element comparator;
a strict prefix compares below the longer sequence. -/
def cmpListLex (c : α → α → Ordering) : List α → List α → Ordering
  | [], [] => .eq
  | [], _ :: _ => .lt
  | _ :: _, [] => .gt
  | a :: as, b :: bs => (c a b).then (cmpListLex c as bs)

/-- node-semver's `compareIdentifiers`: numbers compare numerically,
numbers sort before strings, strings compare as JavaScript strings. -/
def cmpId : PreId → PreId → Ordering
  | .num a, .num b => compare a b
  | .num _, .str _ => .lt
  | .str _, .num _ => .gt
  | .str a, .str b => cmpListLex cmpChar a b

/-- node-semver's `comparePre`: a version with prerelease identifiers
sorts below the same version without, and two nonempty identifier lists
compare lexicographically. -/
def cmpPre : List PreId → List PreId → Ordering
  | [], [] => .eq
  | [], _ :: _ => .gt
  | _ :: _, [] => .lt
  | a :: as, b :: bs => cmpListLex cmpId (a :: as) (b :: bs)

/-- node-semver's `compare`: main version numerically, then prerelease. -/
def compareSemver (a b : Semver) : Ordering :=
  (compare a.major b.major).then
    ((compare a.minor b.minor).then
      ((compare a.patch b.patch).then (cmpPre a.pre b.pre)))

/-- Totalized comparison on parse results. In `getValidTags` the
comparator only ever sees successfully parsed names (the list is filtered
by `validSemver` first, where the library would otherwise throw); the
`none` cases are an arbitrary but fixed total extension. -/
def cmpOptSemver : Option Semver → Option Semver → Ordering
  | none, none => .eq
  | none, some _ => .lt
  | some _, none => .gt
  | some a, some b => compareSemver a b

/-- `o ≠ gt` as a Bool: `cmp(a, b) <= 0` for a JavaScript comparator. -/
def ordLe : Ordering → Bool
  | .gt => false
  | _ => true

/-- The `commit` payload of a fetched tag. -/
structure CommitRef where
  sha : Str
deriving DecidableEq

/-- A fetched git tag. -/
structure Tag where
  name : Str
  commit : CommitRef
deriving DecidableEq

/-- The sort comparator of `getValidTags`:
`rcompare(a.name.replace(prefixRegex, ''), b.name.replace(prefixRegex, ''))`,
i.e. `compare` of the parsed names in reversed argument order. -/
def tagCmp (strip : Str → Str) (a b : Tag) : Ordering :=
  cmpOptSemver (parseSemver (strip b.name)) (parseSemver (strip a.name))

/-- Boolean "may precede" relation induced by the comparator, used to
model the stable `Array.prototype.sort`. -/
def tagLe (strip : Str → Str) (a b : Tag) : Bool := ordLe (tagCmp strip a b)

/-- `getValidTags` (with the external `listTags` result passed in):
filter to tags whose stripped name is valid semver, then sort with the
`rcompare`-based comparator (stable sort, modelled by `mergeSort`). -/
def getValidTags (strip : Str → Str) (tags : List Tag) : List Tag :=
  (tags.filter (fun tag => validSemver (strip tag.name))).mergeSort (tagLe strip)

/-- The tags reported as invalid by `getValidTags`'s debug loop. -/
def invalidTags (strip : Str → Str) (tags : List Tag) : List Tag :=
  tags.filter (fun tag => !(validSemver (strip tag.name)))

/-- `getLatestTag`: first tag without a prerelease component, with the
synthetic `{tagPrefix}0.0.0` / `HEAD` fallback. -/
def getLatestTag (tags : List Tag) (strip : Str → Str) (tagPref : Str) : Tag :=
  match tags.find? (fun tag => !(hasPre (strip tag.name))) with
  | some t => t
  | none => ⟨tagPref ++ ("0.0.0".toList), ⟨"HEAD".toList⟩⟩

/-- `getLatestPrereleaseTag`: filter to prerelease tags, then find the
first whose stripped name matches the identifier.  The identifier is used
as an unescaped regex by the source (`name.match(identifier)`); it is
modelled here as a literal substring match, which coincides with the
regex semantics for identifiers free of regex metacharacters. -/
def getLatestPrereleaseTag (tags : List Tag) (identifier : Str) (strip : Str → Str) : Option Tag :=
  (tags.filter (fun tag => hasPre (strip tag.name))).find?
    (fun tag => isSub identifier (strip tag.name))

/-- A commit as projected by `getCommits`. -/
structure Commit where
  message : Str
  hash : Str
deriving DecidableEq

/-- The conventional-commit type alternation baked into
`getScopedCommits`'s regex. -/
def scopeTypes : List Str :=
  ["build".toList, "chore".toList, "ci".toList, "docs".toList, "feat".toList,
   "fix".toList, "perf".toList, "refactor".toList, "revert".toList,
   "style".toList, "test".toList]

/-- JavaScript `\w`: ASCII letters, digits and underscore. -/
def isWordChar (c : Char) : Bool :=
  c.isDigit || ('a' ≤ c && c ≤ 'z') || ('A' ≤ c && c ≤ 'Z') || c = '_'

/-- A character matched by the regex class `[\w ]`. -/
def isWordSpace (c : Char) : Bool := isWordChar c || c = ' '

/-- Matching of one scope's regex
`^(build|chore|...|test)\(<scope>\)\: [\w ]+` against a message.  The
scope is spliced into the pattern unescaped by the source; this model
treats it as a literal, which coincides with the regex semantics for
scopes free of regex metacharacters. -/
def scopeRegexMatch (scope msg : Str) : Bool :=
  scopeTypes.any fun t =>
    match dropLit (t ++ ("(".toList) ++ scope ++ ("): ".toList)) msg with
    | some (c :: _) => isWordSpace c
    | _ => false

/-- `getScopedCommits`: keep commits whose message matches the scope
regex for at least one requested scope. -/
def getScopedCommits (commits : List Commit) (scopes : List Str) : List Commit :=
  commits.filter fun commit => scopes.any fun scope => scopeRegexMatch scope commit.message

/-- A release rule. Default-table entries carry `breaking := none`
(the source's plain `{type, release, section}` objects); expanded custom
rules carry `some true` / `some false`. An absent `section` is `none`. -/
structure ReleaseRule where
  type : Str
  release : Str
  sect : Option Str
  breaking : Option Bool
deriving DecidableEq

/-- A JavaScript object used as a string-keyed table, modelled as an
insertion-ordered association list with unique keys. -/
abbrev RuleTable := List (Str × ReleaseRule)

/-- Property access `table[key]`: first (unique) binding of the key. -/
def lookupTable : RuleTable → Str → Option ReleaseRule
  | [], _ => none
  | (k, v) :: rest, key => if k = key then some v else lookupTable rest key

/-- Modelled from the spec: `defaultChangelogRules` lives in the
repository's defaults module, which is not under `src/`; per the spec it
is a "static mapping from lowercase commit type to `{type, release,
section}`", supplied as configuration data. Representative entries in the
conventional-changelog style are used for concrete evaluations; every
universally quantified theorem below takes the table as a parameter. -/
def defaultChangelogRules : RuleTable :=
  [("feat".toList, ⟨"feat".toList, "minor".toList, some ("Features".toList), none⟩),
   ("fix".toList, ⟨"fix".toList, "patch".toList, some ("Bug Fixes".toList), none⟩),
   ("docs".toList, ⟨"docs".toList, "patch".toList, some ("Documentation".toList), none⟩)]

/-- `DEFAULT_RELEASE_TYPES` from `@semantic-release/commit-analyzer`:
semver's release-type vocabulary. -/
def defaultReleaseTypes : List Str :=
  ["major".toList, "premajor".toList, "minor".toList, "preminor".toList,
   "patch".toList, "prepatch".toList, "prerelease".toList]

/-- One diagnostic emitted through `core.debug` / `core.warning` inside
`mapCustomReleaseRules`, as a structured value carrying the data the
source interpolates into the message text:
- `warnInvalidDefinition r` — warning "`<r>` is not a valid custom release definition."
- `debugNoSection r` — debug "`<r>` doesn't mention the section for the changelog."
- `debugDefaultSection s` — debug "Default section (`<s>`) will be used instead."
- `debugNotIncluded` — debug "The commits matching this rule won't be included in the changelog."
- `warnInvalidReleaseType t` — warning "`<t>` is not a valid release type." -/
inductive LogMsg where
  | warnInvalidDefinition (rule : Str)
  | debugNoSection (rule : Str)
  | debugDefaultSection (sect : Option Str)
  | debugNotIncluded
  | warnInvalidReleaseType (rel : Str)
deriving DecidableEq

/-- Whether a diagnostic went to the `core.debug` channel. -/
def LogMsg.isDebug : LogMsg → Bool
  | .debugNoSection _ => true
  | .debugDefaultSection _ => true
  | .debugNotIncluded => true
  | _ => false

/-- The filter predicate of `mapCustomReleaseRules` (its decision only;
diagnostics are in `ruleLogs`): a rule is kept when it has at least two
`:`-separated parts and its second part is an allowed release type. -/
def ruleAccept (r : Str) : Bool :=
  match r.splitOn ':' with
  | _ :: rel :: _ => defaultReleaseTypes.contains rel
  | _ => false

/-- The diagnostics emitted while filtering one custom rule, in emission
order. Note the source's section check compares the character length of
the whole rule string with 3 (`customReleaseRule.length !== 3`), not the
number of `:`-separated parts. -/
def ruleLogs (table : RuleTable) (r : Str) : List LogMsg :=
  match r.splitOn ':' with
  | t :: rel :: _ =>
    (if r.length ≠ 3 then
      [LogMsg.debugNoSection r,
       match lookupTable table (lowerStr t) with
       | some dr => LogMsg.debugDefaultSection dr.sect
       | none => LogMsg.debugNotIncluded]
    else []) ++
    (if defaultReleaseTypes.contains rel then [] else [LogMsg.warnInvalidReleaseType rel])
  | _ => [LogMsg.warnInvalidDefinition r]

/-- JavaScript `a || b` on `string | undefined` values: the left operand
wins unless it is absent or the empty string (falsy). -/
def jsOrStr (s d : Option Str) : Option Str :=
  match s with
  | some v => if v.isEmpty then d else some v
  | none => d

/-- The map step of `mapCustomReleaseRules`: destructure
`[type, release, section]`, resolve the section through
`section || defaultRule?.section` with the default rule looked up by the
lowercased type, and emit the breaking/major variant followed by the
literal variant. -/
def expandRule (table : RuleTable) (r : Str) : List ReleaseRule :=
  let parts := r.splitOn ':'
  let type := parts.headD []
  let release := (parts.drop 1).headD []
  let sectPart := (parts.drop 2).head?
  let defaultRule := lookupTable table (lowerStr type)
  let sect := jsOrStr sectPart (defaultRule.bind (fun dr => dr.sect))
  [⟨type, "major".toList, sect, some true⟩, ⟨type, release, sect, some false⟩]

/-- `mapCustomReleaseRules`: split on `,`, filter, map, flatten. -/
def mapCustomReleaseRules (table : RuleTable) (customReleaseTypes : Str) : List ReleaseRule :=
  (((customReleaseTypes.splitOn ',').filter ruleAccept).map (expandRule table)).flatten

/-- All diagnostics emitted by one `mapCustomReleaseRules` call, in
order (the filter callback runs over every split item left to right). -/
def customRuleLogs (table : RuleTable) (customReleaseTypes : Str) : List LogMsg :=
  (customReleaseTypes.splitOn ',').flatMap (ruleLogs table)

/-- JavaScript truthiness of a rule's `section`. -/
def truthySect : Option Str → Bool
  | none => false
  | some s => !s.isEmpty

/-- One step of the reduce: `{...acc, [curr.type]: curr}` — replace the
(unique) binding in place when the key exists, append otherwise, exactly
the update semantics of a string-keyed JavaScript object spread. -/
def upsert : RuleTable → ReleaseRule → RuleTable
  | [], curr => [(curr.type, curr)]
  | (k, v) :: rest, curr =>
    if k = curr.type then (k, curr) :: rest else (k, v) :: upsert rest curr

/-- The reduce of `mergeWithDefaultChangelogRules`, starting from the
spread copy of the default table. -/
def mergeTable (table : RuleTable) (rules : List ReleaseRule) : RuleTable :=
  rules.foldl upsert table

/-- `Object.values` of the merged table (string keys in insertion
order). -/
def tableValues (t : RuleTable) : List ReleaseRule := t.map (fun kv => kv.2)

/-- `mergeWithDefaultChangelogRules`: reduce the expanded rules into the
default table keyed by `type`, then keep the values with a truthy
`section`. -/
def mergeWithDefaultChangelogRules (table : RuleTable) (mappedReleaseRules : List ReleaseRule) : List ReleaseRule :=
  (tableValues (mergeTable table mappedReleaseRules)).filter (fun rule => truthySect rule.sect)

/-- The stripping function induced by the default prefix configuration
(`prefixRegex` built from tag prefix `v`): `name.replace(/^v/, '')`. -/
def stripV : Str → Str
  | 'v' :: rest => rest
  | other => other

/-- JavaScript regex metacharacters (a scope or identifier containing
none of these is interpreted by the spliced regex as a literal). -/
def regexMetaChars : Str :=
  ['\\', '^', '$', '.', '|', '?', '*', '+', '(', ')', '[', ']',
   Char.ofNat 123, Char.ofNat 125]

/-- A string that regex interpolation treats as a literal. -/
def regexLiteral (s : Str) : Bool := s.all (fun c => !(regexMetaChars.contains c))

/-- Section resolution as the specification describes it after amendment:
the explicitly given third part when it is nonempty, otherwise the default
table's section for the lowercased type (absent when neither exists). -/
def claimSect (table : RuleTable) (t : Str) (rest : List Str) : Option Str :=
  match rest.head? with
  | some sv =>
    if sv = [] then (lookupTable table (lowerStr t)).bind (fun dr => dr.sect)
    else some sv
  | none => (lookupTable table (lowerStr t)).bind (fun dr => dr.sect)

/-- Example commit list used by concrete witnesses. -/
def exCommits : List Commit :=
  [⟨"feat(api): x".toList, "h1".toList⟩,
   ⟨"fix(web): y".toList, "h2".toList⟩,
   ⟨"chore: z".toList, "h3".toList⟩]

theorem ordLe_eq_true_iff {o : Ordering} : ordLe o = true ↔ o ≠ .gt := by
  cases o <;> simp [ordLe]

theorem natCompare_swap (a b : Nat) : compare a b = (compare b a).swap := by
  rcases Nat.lt_trichotomy a b with h | h | h
  · rw [Nat.compare_eq_lt.mpr h, Nat.compare_eq_gt.mpr h]; rfl
  · subst h; rw [Nat.compare_eq_eq.mpr rfl]; rfl
  · rw [Nat.compare_eq_gt.mpr h, Nat.compare_eq_lt.mpr h]; rfl

/-- Transitivity transport along one `Ordering.then` layer: if the head
comparisons compose as required and the tails are transitive, the chained
comparison is transitive at `lt`. -/
theorem then_lt_trans {a₁ a₂ b₁ b₂ c₁ c₂ : Ordering}
    (h₁ : a₁.then a₂ = .lt) (h₂ : b₁.then b₂ = .lt)
    (hee : a₁ = .eq → b₁ = .eq → c₁ = .eq)
    (hel : a₁ = .eq → b₁ = .lt → c₁ = .lt)
    (hle : a₁ = .lt → b₁ = .eq → c₁ = .lt)
    (hll : a₁ = .lt → b₁ = .lt → c₁ = .lt)
    (htail : a₁ = .eq → b₁ = .eq → a₂ = .lt → b₂ = .lt → c₂ = .lt) :
    c₁.then c₂ = .lt := by
  rw [Ordering.then_eq_lt] at h₁ h₂ ⊢
  rcases h₁ with h₁ | ⟨h₁, h₁t⟩ <;> rcases h₂ with h₂ | ⟨h₂, h₂t⟩
  · exact .inl (hll h₁ h₂)
  · exact .inl (hle h₁ h₂)
  · exact .inl (hel h₁ h₂)
  · exact .inr ⟨hee h₁ h₂, htail h₁ h₂ h₁t h₂t⟩

theorem cmpChar_swap (a b : Char) : cmpChar a b = (cmpChar b a).swap :=
  natCompare_swap _ _

theorem cmpChar_eq {a b : Char} (h : cmpChar a b = .eq) : a = b :=
  Char.ext (UInt32.ext (Nat.compare_eq_eq.mp h))

theorem cmpChar_lt_trans {a b c : Char} (h₁ : cmpChar a b = .lt)
    (h₂ : cmpChar b c = .lt) : cmpChar a c = .lt :=
  Nat.compare_eq_lt.mpr (Nat.lt_trans (Nat.compare_eq_lt.mp h₁) (Nat.compare_eq_lt.mp h₂))

theorem cmpListLex_swap (c : α → α → Ordering)
    (hc : ∀ a b, c a b = (c b a).swap) :
    ∀ x y, cmpListLex c x y = (cmpListLex c y x).swap := by
  intro x
  induction x with
  | nil => intro y; cases y <;> rfl
  | cons a as ih =>
    intro y
    cases y with
    | nil => rfl
    | cons b bs =>
      show (c a b).then (cmpListLex c as bs) = ((c b a).then (cmpListLex c bs as)).swap
      rw [Ordering.swap_then, ← hc a b, ← ih bs]

theorem cmpListLex_eq {c : α → α → Ordering}
    (hc : ∀ {a b}, c a b = .eq → a = b) :
    ∀ {x y}, cmpListLex c x y = .eq → x = y := by
  intro x
  induction x with
  | nil => intro y h; cases y with
    | nil => rfl
    | cons b bs => exact absurd h (by simp [cmpListLex])
  | cons a as ih =>
    intro y h
    cases y with
    | nil => exact absurd h (by simp [cmpListLex])
    | cons b bs =>
      have h' : (c a b).then (cmpListLex c as bs) = .eq := h
      rw [Ordering.then_eq_eq] at h'
      rw [hc h'.1, ih h'.2]

theorem cmpListLex_lt_trans {c : α → α → Ordering}
    (hceq : ∀ {a b}, c a b = .eq → a = b)
    (hclt : ∀ {a b d}, c a b = .lt → c b d = .lt → c a d = .lt)
    (hcrefl : ∀ a, c a a = .eq) :
    ∀ {x y z}, cmpListLex c x y = .lt → cmpListLex c y z = .lt →
      cmpListLex c x z = .lt := by
  intro x
  induction x with
  | nil =>
    intro y z h₁ h₂
    cases y with
    | nil => exact h₂
    | cons b bs =>
      cases z with
      | nil => exact absurd h₂ (by simp [cmpListLex])
      | cons d ds => rfl
  | cons a as ih =>
    intro y z h₁ h₂
    cases y with
    | nil => exact absurd h₁ (by simp [cmpListLex])
    | cons b bs =>
      cases z with
      | nil => exact absurd h₂ (by simp [cmpListLex])
      | cons d ds =>
        have h₁' : (c a b).then (cmpListLex c as bs) = .lt := h₁
        have h₂' : (c b d).then (cmpListLex c bs ds) = .lt := h₂
        show (c a d).then (cmpListLex c as ds) = .lt
        refine then_lt_trans h₁' h₂' ?_ ?_ ?_ ?_ ?_
        · intro he₁ he₂; rw [hceq he₁] at *; rw [hceq he₂] at *; exact hcrefl d
        · intro he₁ hl₂; rw [hceq he₁]; exact hl₂
        · intro hl₁ he₂; rw [← hceq he₂]; exact hl₁
        · intro hl₁ hl₂; exact hclt hl₁ hl₂
        · intro _ _ ht₁ ht₂
          exact ih ht₁ ht₂

theorem cmpId_swap (a b : PreId) : cmpId a b = (cmpId b a).swap := by
  cases a <;> cases b <;>
    first
      | rfl
      | exact natCompare_swap _ _
      | exact cmpListLex_swap cmpChar cmpChar_swap _ _

theorem cmp_refl_of_swap {c : α → α → Ordering}
    (hswap : ∀ a b, c a b = (c b a).swap) (a : α) : c a a = .eq := by
  have h := hswap a a
  cases hc : c a a
  case lt => rw [hc] at h; exact absurd h (by decide)
  case eq => rfl
  case gt => rw [hc] at h; exact absurd h (by decide)

theorem cmpChar_refl (a : Char) : cmpChar a a = .eq := Nat.compare_eq_eq.mpr rfl

theorem cmpId_refl (a : PreId) : cmpId a a = .eq := cmp_refl_of_swap cmpId_swap a

theorem cmpId_eq {a b : PreId} (h : cmpId a b = .eq) : a = b := by
  cases a <;> cases b
  · exact congrArg PreId.num (Nat.compare_eq_eq.mp h)
  · exact absurd h (by simp [cmpId])
  · exact absurd h (by simp [cmpId])
  · exact congrArg PreId.str (cmpListLex_eq cmpChar_eq h)

theorem cmpId_lt_trans {a b c : PreId} (h₁ : cmpId a b = .lt)
    (h₂ : cmpId b c = .lt) : cmpId a c = .lt := by
  cases a <;> cases b <;> cases c <;> simp only [cmpId] at h₁ h₂ ⊢ <;>
    first
      | rfl
      | exact absurd h₁ (by decide)
      | exact absurd h₂ (by decide)
      | exact Nat.compare_eq_lt.mpr
          (Nat.lt_trans (Nat.compare_eq_lt.mp h₁) (Nat.compare_eq_lt.mp h₂))
      | exact cmpListLex_lt_trans cmpChar_eq cmpChar_lt_trans cmpChar_refl h₁ h₂

theorem cmpPre_swap (x y : List PreId) : cmpPre x y = (cmpPre y x).swap := by
  cases x <;> cases y <;>
    first
      | rfl
      | exact cmpListLex_swap cmpId cmpId_swap _ _

theorem cmpPre_eq {x y : List PreId} (h : cmpPre x y = .eq) : x = y := by
  cases x with
  | nil =>
    cases y with
    | nil => rfl
    | cons b bs => exact absurd h (by simp [cmpPre])
  | cons a as =>
    cases y with
    | nil => exact absurd h (by simp [cmpPre])
    | cons b bs => exact cmpListLex_eq cmpId_eq h

theorem cmpPre_lt_trans {x y z : List PreId} (h₁ : cmpPre x y = .lt)
    (h₂ : cmpPre y z = .lt) : cmpPre x z = .lt := by
  cases x with
  | nil =>
    cases y with
    | nil => exact absurd h₁ (by simp [cmpPre])
    | cons b bs => exact absurd h₁ (by simp [cmpPre])
  | cons a as =>
    cases y with
    | nil =>
      cases z with
      | nil => exact absurd h₂ (by simp [cmpPre])
      | cons d ds => exact absurd h₂ (by simp [cmpPre])
    | cons b bs =>
      cases z with
      | nil => rfl
      | cons d ds => exact cmpListLex_lt_trans cmpId_eq cmpId_lt_trans cmpId_refl h₁ h₂

theorem natCompare_ee {a b c : Nat} :
    compare a b = .eq → compare b c = .eq → compare a c = .eq := by
  simp only [Nat.compare_eq_eq]; omega

theorem natCompare_el {a b c : Nat} :
    compare a b = .eq → compare b c = .lt → compare a c = .lt := by
  simp only [Nat.compare_eq_eq, Nat.compare_eq_lt]; omega

theorem natCompare_le {a b c : Nat} :
    compare a b = .lt → compare b c = .eq → compare a c = .lt := by
  simp only [Nat.compare_eq_eq, Nat.compare_eq_lt]; omega

theorem natCompare_ll {a b c : Nat} :
    compare a b = .lt → compare b c = .lt → compare a c = .lt := by
  simp only [Nat.compare_eq_lt]; omega

theorem compareSemver_swap (a b : Semver) :
    compareSemver a b = (compareSemver b a).swap := by
  unfold compareSemver
  rw [Ordering.swap_then, Ordering.swap_then, Ordering.swap_then,
    ← natCompare_swap, ← natCompare_swap, ← natCompare_swap, ← cmpPre_swap]

theorem compareSemver_eq {a b : Semver} (h : compareSemver a b = .eq) : a = b := by
  unfold compareSemver at h
  rw [Ordering.then_eq_eq, Ordering.then_eq_eq, Ordering.then_eq_eq] at h
  obtain ⟨h1, h2, h3, h4⟩ := h
  obtain ⟨ma, mi, pa, pr⟩ := a
  obtain ⟨mb, mib, pab, prb⟩ := b
  simp only at h1 h2 h3 h4
  rw [Nat.compare_eq_eq] at h1 h2 h3
  rw [h1, h2, h3, cmpPre_eq h4]

theorem compareSemver_lt_trans {x y z : Semver} (h₁ : compareSemver x y = .lt)
    (h₂ : compareSemver y z = .lt) : compareSemver x z = .lt := by
  unfold compareSemver at h₁ h₂ ⊢
  refine then_lt_trans h₁ h₂ natCompare_ee natCompare_el natCompare_le natCompare_ll ?_
  intro _ _ t₁ t₂
  refine then_lt_trans t₁ t₂ natCompare_ee natCompare_el natCompare_le natCompare_ll ?_
  intro _ _ u₁ u₂
  refine then_lt_trans u₁ u₂ natCompare_ee natCompare_el natCompare_le natCompare_ll ?_
  intro _ _ v₁ v₂
  exact cmpPre_lt_trans v₁ v₂

theorem compareSemver_le_trans {x y z : Semver} (h₁ : compareSemver x y ≠ .gt)
    (h₂ : compareSemver y z ≠ .gt) : compareSemver x z ≠ .gt := by
  have d : ∀ a b : Semver, compareSemver a b ≠ .gt → compareSemver a b = .lt ∨ a = b := by
    intro a b h
    cases hc : compareSemver a b
    case lt => exact .inl rfl
    case eq => exact .inr (compareSemver_eq hc)
    case gt => exact absurd hc h
  rcases d x y h₁ with hl₁ | he₁
  · rcases d y z h₂ with hl₂ | he₂
    · rw [compareSemver_lt_trans hl₁ hl₂]; simp
    · subst he₂; rw [hl₁]; simp
  · subst he₁; exact h₂

theorem cmpOptSemver_swap (a b : Option Semver) :
    cmpOptSemver a b = (cmpOptSemver b a).swap := by
  cases a <;> cases b <;>
    first
      | rfl
      | exact compareSemver_swap _ _

theorem cmpOptSemver_le_trans {a b c : Option Semver} (h₁ : cmpOptSemver a b ≠ .gt)
    (h₂ : cmpOptSemver b c ≠ .gt) : cmpOptSemver a c ≠ .gt := by
  cases a <;> cases b <;> cases c <;> simp only [cmpOptSemver] at h₁ h₂ ⊢ <;>
    first
      | decide
      | exact absurd rfl h₁
      | exact absurd rfl h₂
      | exact compareSemver_le_trans h₁ h₂

theorem tagCmp_swap (strip : Str → Str) (a b : Tag) :
    tagCmp strip a b = (tagCmp strip b a).swap := cmpOptSemver_swap _ _

theorem tagLe_trans (strip : Str → Str) (a b c : Tag)
    (h₁ : tagLe strip a b = true) (h₂ : tagLe strip b c = true) :
    tagLe strip a c = true := by
  rw [tagLe, ordLe_eq_true_iff] at h₁ h₂ ⊢
  exact cmpOptSemver_le_trans h₂ h₁

theorem tagLe_total (strip : Str → Str) (a b : Tag) :
    (tagLe strip a b || tagLe strip b a) = true := by
  unfold tagLe
  rw [tagCmp_swap]
  cases tagCmp strip b a <;> rfl


theorem find?_split (p : α → Bool) (l : List α) :
    (∃ l₁ a l₂, l = l₁ ++ a :: l₂ ∧ (∀ x ∈ l₁, p x = false) ∧ p a = true ∧
      l.find? p = some a)
    ∨ ((∀ x ∈ l, p x = false) ∧ l.find? p = none) := by
  induction l with
  | nil => exact .inr ⟨by simp, rfl⟩
  | cons a as ih =>
    cases hp : p a
    · rcases ih with ⟨l₁, b, l₂, he, hall, hb, hf⟩ | ⟨hall, hf⟩
      · refine .inl ⟨a :: l₁, b, l₂, by rw [he, List.cons_append], ?_, hb, ?_⟩
        · intro x hx
          rcases List.mem_cons.mp hx with rfl | hx
          · exact hp
          · exact hall x hx
        · rw [List.find?_cons, hp]; exact hf
      · refine .inr ⟨?_, ?_⟩
        · intro x hx
          rcases List.mem_cons.mp hx with rfl | hx
          · exact hp
          · exact hall x hx
        · rw [List.find?_cons, hp]; exact hf
    · refine .inl ⟨[], a, as, rfl, by simp, hp, ?_⟩
      rw [List.find?_cons, hp]

theorem dropLit_eq_some_iff {pat s rest : Str} :
    dropLit pat s = some rest ↔ s = pat ++ rest := by
  induction pat generalizing s with
  | nil => simp [dropLit, eq_comm]
  | cons c cs ih =>
    cases s with
    | nil => simp [dropLit]
    | cons d ds =>
      by_cases h : c = d
      · subst h
        simp [dropLit, ih]
      · simp [dropLit, h]
        exact fun hh _ => h hh.symm

theorem dropLit_isSome_iff {pat s : Str} :
    (dropLit pat s).isSome = true ↔ ∃ rest, s = pat ++ rest := by
  rw [Option.isSome_iff_exists]
  constructor
  · rintro ⟨rest, h⟩; exact ⟨rest, dropLit_eq_some_iff.mp h⟩
  · rintro ⟨rest, h⟩; exact ⟨rest, dropLit_eq_some_iff.mpr h⟩

theorem isSub_iff {pat s : Str} :
    isSub pat s = true ↔ ∃ l₁ l₂, s = l₁ ++ pat ++ l₂ := by
  induction s with
  | nil =>
    rw [isSub, dropLit_isSome_iff]
    constructor
    · rintro ⟨rest, h⟩; exact ⟨[], rest, by simpa using h⟩
    · rintro ⟨l₁, l₂, h⟩
      rw [List.append_assoc] at h
      rcases List.append_eq_nil.mp h.symm with ⟨rfl, h₂⟩
      rcases List.append_eq_nil.mp h₂ with ⟨rfl, rfl⟩
      exact ⟨[], rfl⟩
  | cons c rest ih =>
    rw [isSub, Bool.or_eq_true, dropLit_isSome_iff, ih]
    constructor
    · rintro (⟨r, hr⟩ | ⟨l₁, l₂, hl⟩)
      · exact ⟨[], r, by simpa using hr⟩
      · exact ⟨c :: l₁, l₂, by simp [hl]⟩
    · rintro ⟨l₁, l₂, hl⟩
      cases l₁ with
      | nil => exact .inl ⟨l₂, by simpa using hl⟩
      | cons x xs =>
        right
        rcases List.cons_eq_cons.mp hl with ⟨rfl, htail⟩
        exact ⟨xs, l₂, htail⟩

theorem upsert_lookup (t : RuleTable) (r : ReleaseRule) (k : Str) :
    lookupTable (upsert t r) k = if k = r.type then some r else lookupTable t k := by
  induction t with
  | nil =>
    show lookupTable [(r.type, r)] k = if k = r.type then some r else lookupTable [] k
    simp only [lookupTable]
    by_cases h : k = r.type
    · rw [if_pos h.symm, if_pos h]
    · rw [if_neg (fun hh => h (Eq.symm hh)), if_neg h]
  | cons kv rest ih =>
    obtain ⟨k₀, v₀⟩ := kv
    show lookupTable (if k₀ = r.type then (k₀, r) :: rest else (k₀, v₀) :: upsert rest r) k = _
    by_cases h₀ : k₀ = r.type
    · rw [if_pos h₀]
      by_cases hk : k₀ = k
      · have hkr : k = r.type := hk.symm.trans h₀
        simp [lookupTable, hk, hkr]
      · have hkr : ¬(k = r.type) := fun hh => hk (h₀.trans hh.symm)
        simp [lookupTable, hk, hkr]
    · rw [if_neg h₀]
      by_cases hk : k₀ = k
      · have hkr : ¬(k = r.type) := fun hh => h₀ (hk.trans hh)
        simp [lookupTable, hk, hkr]
      · simp [lookupTable, hk, ih]

theorem foldl_upsert_lookup (rules : List ReleaseRule) :
    ∀ (t : RuleTable) (k : Str),
      lookupTable (rules.foldl upsert t) k =
        rules.foldl (fun acc ru => if ru.type = k then some ru else acc)
          (lookupTable t k) := by
  induction rules with
  | nil => intro t k; rfl
  | cons r rs ih =>
    intro t k
    rw [List.foldl_cons, List.foldl_cons, ih (upsert t r) k, upsert_lookup]
    congr 1
    by_cases h : r.type = k
    · rw [if_pos h, if_pos h.symm]
    · rw [if_neg h, if_neg (fun hh => h hh.symm)]

theorem getLast?_cons_ne_none (x : α) (l : List α) : (x :: l).getLast? ≠ none := by
  induction l generalizing x with
  | nil => simp
  | cons y ys ih => rw [List.getLast?_cons_cons]; exact ih y

theorem foldl_lastWriter (k : Str) (rules : List ReleaseRule) :
    ∀ init : Option ReleaseRule,
      rules.foldl (fun acc ru => if ru.type = k then some ru else acc) init =
        match (rules.filter (fun ru => ru.type = k)).getLast? with
        | some ru => some ru
        | none => init := by
  induction rules with
  | nil => intro init; rfl
  | cons r rs ih =>
    intro init
    by_cases h : r.type = k
    · rw [List.foldl_cons, ih, List.filter_cons_of_pos (by simp [h])]
      cases hrs : rs.filter (fun ru => ru.type = k) with
      | nil => simp [h]
      | cons q qs =>
        cases hq : (q :: qs).getLast? with
        | none => exact absurd hq (getLast?_cons_ne_none q qs)
        | some x => rw [List.getLast?_cons_cons, hq]
    · rw [List.foldl_cons, ih, List.filter_cons_of_neg (by simp [h])]
      simp [h]

theorem mergeTable_lookup (table : RuleTable) (rules : List ReleaseRule) (k : Str) :
    lookupTable (mergeTable table rules) k =
      match (rules.filter (fun ru => ru.type = k)).getLast? with
      | some ru => some ru
      | none => lookupTable table k := by
  show lookupTable (rules.foldl upsert table) k = _
  rw [foldl_upsert_lookup, foldl_lastWriter]

theorem lookupTable_mem {t : RuleTable} {k : Str} {v : ReleaseRule}
    (h : lookupTable t k = some v) : (k, v) ∈ t := by
  induction t with
  | nil => exact absurd h (by simp [lookupTable])
  | cons kv rest ih =>
    obtain ⟨k₀, v₀⟩ := kv
    by_cases hk : k₀ = k
    · subst hk
      rw [lookupTable, if_pos rfl] at h
      have hv := Option.some.inj h
      subst hv
      exact List.mem_cons_self _ _
    · rw [lookupTable, if_neg hk] at h
      exact List.mem_cons_of_mem _ (ih h)

theorem upsert_mem_preserved {t : RuleTable} {k : Str} {d : ReleaseRule}
    (r : ReleaseRule) (hmem : (k, d) ∈ t) (hne : r.type ≠ k) :
    (k, d) ∈ upsert t r := by
  induction t with
  | nil => exact absurd hmem (by simp)
  | cons kv rest ih =>
    obtain ⟨k₀, v₀⟩ := kv
    show (k, d) ∈ if k₀ = r.type then (k₀, r) :: rest else (k₀, v₀) :: upsert rest r
    rcases List.mem_cons.mp hmem with he | hm
    · have hk : k₀ = k := (Prod.mk.injEq _ _ _ _ ▸ he.symm).1
      have : ¬(k₀ = r.type) := fun hh => hne ((hh.symm.trans hk))
      rw [if_neg this]
      exact he ▸ List.mem_cons_self _ _
    · by_cases h₀ : k₀ = r.type
      · rw [if_pos h₀]
        exact List.mem_cons_of_mem _ hm
      · rw [if_neg h₀]
        exact List.mem_cons_of_mem _ (ih hm)

theorem mergeTable_mem_preserved {k : Str} {d : ReleaseRule}
    (rules : List ReleaseRule) :
    ∀ (t : RuleTable), (k, d) ∈ t → (∀ ru ∈ rules, ru.type ≠ k) →
      (k, d) ∈ mergeTable t rules := by
  induction rules with
  | nil => intro t hm _; exact hm
  | cons r rs ih =>
    intro t hm hne
    show (k, d) ∈ rs.foldl upsert (upsert t r)
    exact ih (upsert t r)
      (upsert_mem_preserved r hm (hne r (List.mem_cons_self _ _)))
      (fun ru hru => hne ru (List.mem_cons_of_mem _ hru))

theorem tagLe_iff_ge (strip : Str → Str) (a b : Tag) :
    tagLe strip a b = true ↔
      cmpOptSemver (parseSemver (strip a.name)) (parseSemver (strip b.name)) ≠ .lt := by
  rw [tagLe, ordLe_eq_true_iff, tagCmp, cmpOptSemver_swap]
  cases cmpOptSemver (parseSemver (strip a.name)) (parseSemver (strip b.name)) <;>
    simp [Ordering.swap]

theorem scopeRegexMatch_iff {scope msg : Str} :
    scopeRegexMatch scope msg = true ↔
      ∃ t ∈ scopeTypes, ∃ ch rest,
        msg = t ++ ("(".toList) ++ scope ++ ("): ".toList) ++ ch :: rest ∧
        isWordSpace ch = true := by
  unfold scopeRegexMatch
  rw [List.any_eq_true]
  constructor
  · rintro ⟨t, ht, hm⟩
    refine ⟨t, ht, ?_⟩
    cases hd : dropLit (t ++ ("(".toList) ++ scope ++ ("): ".toList)) msg with
    | none => rw [hd] at hm; exact absurd hm (by simp)
    | some r =>
      cases r with
      | nil => rw [hd] at hm; exact absurd hm (by simp)
      | cons ch rest =>
        rw [hd] at hm
        exact ⟨ch, rest, dropLit_eq_some_iff.mp hd, hm⟩
  · rintro ⟨t, ht, ch, rest, hmsg, hws⟩
    refine ⟨t, ht, ?_⟩
    rw [dropLit_eq_some_iff.mpr hmsg]
    exact hws

theorem expandRule_eq (table : RuleTable) (r : Str) {t rel : Str} {rest : List Str}
    (hsp : r.splitOn ':' = t :: rel :: rest) :
    expandRule table r =
      [⟨t, "major".toList,
         jsOrStr rest.head? ((lookupTable table (lowerStr t)).bind (fun dr => dr.sect)),
         some true⟩,
       ⟨t, rel,
         jsOrStr rest.head? ((lookupTable table (lowerStr t)).bind (fun dr => dr.sect)),
         some false⟩] := by
  unfold expandRule
  rw [hsp]
  rfl

theorem jsOrStr_eq_claimSect (table : RuleTable) (t : Str) (rest : List Str) :
    jsOrStr rest.head? ((lookupTable table (lowerStr t)).bind (fun dr => dr.sect)) =
      claimSect table t rest := by
  unfold jsOrStr claimSect
  cases rest.head? with
  | none => rfl
  | some sv =>
    by_cases h : sv = []
    · simp [h]
    · simp [h, List.isEmpty_iff]

theorem mapCustomReleaseRules_flatMap (table : RuleTable) (cfg : Str) :
    mapCustomReleaseRules table cfg =
      ((cfg.splitOn ',').filter ruleAccept).flatMap (expandRule table) := by
  unfold mapCustomReleaseRules
  rw [← List.flatMap_def]

theorem ruleAccept_iff {r : Str} :
    ruleAccept r = true ↔
      ∃ t rel rest, r.splitOn ':' = t :: rel :: rest ∧ rel ∈ defaultReleaseTypes := by
  unfold ruleAccept
  cases hsp : r.splitOn ':' with
  | nil =>
    simp only [Bool.false_eq_true, false_iff]
    rintro ⟨t, rel, rest, heq, -⟩
    exact List.cons_ne_nil t (rel :: rest) heq.symm
  | cons t tl =>
    cases tl with
    | nil =>
      simp only [Bool.false_eq_true, false_iff]
      rintro ⟨t', rel', rest', heq, -⟩
      rcases List.cons_eq_cons.mp heq with ⟨-, h2⟩
      exact List.cons_ne_nil rel' rest' h2.symm
    | cons rel rest =>
      constructor
      · intro h
        exact ⟨t, rel, rest, rfl, List.elem_iff.mp h⟩
      · rintro ⟨t', rel', rest', heq, hmem⟩
        rcases List.cons_eq_cons.mp heq with ⟨rfl, h2⟩
        rcases List.cons_eq_cons.mp h2 with ⟨rfl, -⟩
        exact List.elem_iff.mpr hmem

theorem expandRule_shape (table : RuleTable) (r : Str) :
    ∃ t₀ sect₀ rel₀, expandRule table r =
      [⟨t₀, "major".toList, sect₀, some true⟩, ⟨t₀, rel₀, sect₀, some false⟩] :=
  ⟨_, _, _, rfl⟩

theorem flatMap_expand_filter_getLast (table : RuleTable) (k : Str) :
    ∀ (L : List Str) (r₀ : ReleaseRule),
      ((L.flatMap (expandRule table)).filter (fun ru => ru.type = k)).getLast? =
        some r₀ →
      r₀.breaking = some false := by
  intro L
  induction L with
  | nil => intro r₀ h; exact absurd h (by simp)
  | cons r rs ih =>
    intro r₀ h
    rw [List.flatMap_cons, List.filter_append, List.getLast?_append] at h
    cases hq : ((rs.flatMap (expandRule table)).filter (fun ru => ru.type = k)).getLast? with
    | some x =>
      rw [hq] at h
      have hx : x = r₀ := Option.some.inj h
      exact hx ▸ ih x hq
    | none =>
      rw [hq, Option.none_or] at h
      obtain ⟨t₀, s₀, rl₀, hex⟩ := expandRule_shape table r
      rw [hex] at h
      by_cases ht : t₀ = k
      · rw [List.filter_cons_of_pos (by simp [ht]), List.filter_cons_of_pos (by simp [ht]),
          List.filter_nil, List.getLast?_cons_cons, List.getLast?_singleton] at h
        have : (⟨t₀, rl₀, s₀, some false⟩ : ReleaseRule) = r₀ := Option.some.inj h
        rw [← this]
      · rw [List.filter_cons_of_neg (by simp [ht]), List.filter_cons_of_neg (by simp [ht]),
          List.filter_nil] at h
        exact absurd h (by simp)

/-- C5: for every tag list, `getLatestTag` returns the first tag in the
list whose stripped name has no prerelease component, and when no such
tag exists (including the empty list) it returns the synthetic tag
`{tagPrefix}0.0.0` with commit sha `HEAD` — the caller always receives a
tag value. -/
theorem getLatestTag_first_stable_or_fallback (tags : List Tag) (strip : Str → Str)
    (tagPref : Str) :
    (∃ l₁ t l₂, tags = l₁ ++ t :: l₂ ∧
        (∀ u ∈ l₁, hasPre (strip u.name) = true) ∧
        hasPre (strip t.name) = false ∧
        getLatestTag tags strip tagPref = t)
    ∨ ((∀ u ∈ tags, hasPre (strip u.name) = true) ∧
        getLatestTag tags strip tagPref =
          ⟨tagPref ++ ("0.0.0".toList), ⟨"HEAD".toList⟩⟩) := by
  rcases find?_split (fun tag => !(hasPre (strip tag.name))) tags with
    ⟨l₁, t, l₂, he, hall, ht, hf⟩ | ⟨hall, hf⟩
  · refine .inl ⟨l₁, t, l₂, he, ?_, ?_, ?_⟩
    · intro u hu
      have h := hall u hu
      simpa using h
    · simpa using ht
    · unfold getLatestTag
      rw [hf]
  · refine .inr ⟨?_, ?_⟩
    · intro u hu
      have h := hall u hu
      simpa using h
    · unfold getLatestTag
      rw [hf]

/-- C6: `getLatestPrereleaseTag` restricts to the tags whose stripped
name has a prerelease component and returns the first of them (in list
order) whose stripped name contains the identifier as a substring; when
none matches it returns `none` — no synthetic fallback, asymmetric with
`getLatestTag`. -/
theorem getLatestPrereleaseTag_first_match_or_none (tags : List Tag)
    (identifier : Str) (strip : Str → Str) :
    (∀ u, u ∈ tags.filter (fun tag => hasPre (strip tag.name)) ↔
        u ∈ tags ∧ hasPre (strip u.name) = true)
    ∧ ((∃ l₁ t l₂,
          tags.filter (fun tag => hasPre (strip tag.name)) = l₁ ++ t :: l₂ ∧
          (∀ u ∈ l₁, ¬ ∃ p q, strip u.name = p ++ identifier ++ q) ∧
          (∃ p q, strip t.name = p ++ identifier ++ q) ∧
          getLatestPrereleaseTag tags identifier strip = some t)
        ∨ ((∀ u ∈ tags.filter (fun tag => hasPre (strip tag.name)),
              ¬ ∃ p q, strip u.name = p ++ identifier ++ q) ∧
            getLatestPrereleaseTag tags identifier strip = none)) := by
  constructor
  · intro u; exact List.mem_filter
  · rcases find?_split (fun tag => isSub identifier (strip tag.name))
      (tags.filter (fun tag => hasPre (strip tag.name))) with
      ⟨l₁, t, l₂, he, hall, ht, hf⟩ | ⟨hall, hf⟩
    · refine .inl ⟨l₁, t, l₂, he, ?_, isSub_iff.mp ht, ?_⟩
      · intro u hu hex
        exact absurd (isSub_iff.mpr hex) (by simp [hall u hu])
      · unfold getLatestPrereleaseTag
        rw [hf]
    · refine .inr ⟨?_, ?_⟩
      · intro u hu hex
        exact absurd (isSub_iff.mpr hex) (by simp [hall u hu])
      · unfold getLatestPrereleaseTag
        rw [hf]

/-- C7: `getValidTags` drops every tag whose stripped name is not valid
semver (wherever it sits in the input), keeps exactly the valid ones, and
orders the result by non-ascending semver precedence of the stripped
names. -/
theorem getValidTags_excludes_invalid_and_sorts (strip : Str → Str) (tags : List Tag) :
    ((getValidTags strip tags).Perm
        (tags.filter (fun tag => validSemver (strip tag.name))))
    ∧ (∀ tag ∈ tags, validSemver (strip tag.name) = false →
        tag ∉ getValidTags strip tags)
    ∧ (getValidTags strip tags).Pairwise
        (fun a b =>
          cmpOptSemver (parseSemver (strip a.name)) (parseSemver (strip b.name)) ≠ .lt) := by
  refine ⟨List.mergeSort_perm _ _, ?_, ?_⟩
  · intro tag _ hinv hmem
    have hin : tag ∈ tags.filter (fun tag => validSemver (strip tag.name)) :=
      (List.mergeSort_perm _ _).mem_iff.mp hmem
    have hv := List.of_mem_filter hin
    rw [hinv] at hv
    exact absurd hv (by simp)
  · have hp := List.sorted_mergeSort (tagLe_trans strip) (tagLe_total strip)
      (tags.filter (fun tag => validSemver (strip tag.name)))
    exact hp.imp (fun hab => (tagLe_iff_ge strip _ _).mp hab)

/-- C7 witness: with the default `v`-stripping, the invalid tag `bogus`
never appears in the output. -/
theorem getValidTags_excludes_invalid_and_sorts_witness :
    ((⟨"bogus".toList, ⟨"b".toList⟩⟩ : Tag) ∈
        [(⟨"v1.0.0".toList, ⟨"a".toList⟩⟩ : Tag), ⟨"bogus".toList, ⟨"b".toList⟩⟩])
    ∧ validSemver (stripV ("bogus".toList)) = false
    ∧ (⟨"bogus".toList, ⟨"b".toList⟩⟩ : Tag) ∉
        getValidTags stripV
          [⟨"v1.0.0".toList, ⟨"a".toList⟩⟩, ⟨"bogus".toList, ⟨"b".toList⟩⟩] := by
  refine ⟨by decide, by decide, ?_⟩
  exact (getValidTags_excludes_invalid_and_sorts stripV
    [⟨"v1.0.0".toList, ⟨"a".toList⟩⟩, ⟨"bogus".toList, ⟨"b".toList⟩⟩]).2.1
    _ (by decide) (by decide)

/-- C8 counterexample: two distinct valid tags of equal semver precedence
(`1.2.3+a` and `1.2.3+b`; build metadata is ignored by comparison) both
survive the sort and sit adjacent, so the output is not strictly
decreasing in precedence. -/
theorem tagSort_not_strictly_decreasing :
    ¬ (getValidTags stripV
        [⟨"1.2.3+a".toList, ⟨"s1".toList⟩⟩, ⟨"1.2.3+b".toList, ⟨"s2".toList⟩⟩]).Pairwise
        (fun a b =>
          cmpOptSemver (parseSemver (stripV a.name)) (parseSemver (stripV b.name)) = .gt) := by
  intro h
  have hout : getValidTags stripV
      [⟨"1.2.3+a".toList, ⟨"s1".toList⟩⟩, ⟨"1.2.3+b".toList, ⟨"s2".toList⟩⟩] =
      [⟨"1.2.3+a".toList, ⟨"s1".toList⟩⟩, ⟨"1.2.3+b".toList, ⟨"s2".toList⟩⟩] := by
    unfold getValidTags
    rw [show List.filter
        (fun tag => validSemver (stripV tag.name))
        [(⟨"1.2.3+a".toList, ⟨"s1".toList⟩⟩ : Tag), ⟨"1.2.3+b".toList, ⟨"s2".toList⟩⟩] =
        [(⟨"1.2.3+a".toList, ⟨"s1".toList⟩⟩ : Tag), ⟨"1.2.3+b".toList, ⟨"s2".toList⟩⟩]
      from by decide]
    refine List.mergeSort_of_sorted ?_
    refine List.pairwise_cons.mpr ⟨?_, List.pairwise_cons.mpr ⟨?_, List.Pairwise.nil⟩⟩
    · intro b hb
      rw [List.mem_singleton.mp hb]
      decide
    · intro b hb
      exact absurd hb (List.not_mem_nil b)
  rw [hout] at h
  have hrel := (List.pairwise_cons.mp h).1 ⟨"1.2.3+b".toList, ⟨"s2".toList⟩⟩ (by simp)
  exact absurd hrel (by decide)

/-- C8 (amended): the tag sort is idempotent — re-sorting the output
changes nothing — and the output is non-increasing in semver precedence
of the stripped names (strictly decreasing only in the absence of
precedence ties; tags with equal precedence stay adjacent in stable
order). -/
theorem tagSort_idempotent_and_descending (strip : Str → Str) (tags : List Tag) :
    getValidTags strip (getValidTags strip tags) = getValidTags strip tags
    ∧ (getValidTags strip tags).Pairwise
        (fun a b =>
          cmpOptSemver (parseSemver (strip a.name)) (parseSemver (strip b.name)) ≠ .lt) := by
  constructor
  · unfold getValidTags
    have hmem : ∀ tag ∈ (tags.filter
        (fun tag => validSemver (strip tag.name))).mergeSort (tagLe strip),
        validSemver (strip tag.name) = true := by
      intro tag h
      have hin : tag ∈ tags.filter (fun tag => validSemver (strip tag.name)) :=
        (List.mergeSort_perm
          (tags.filter (fun tag => validSemver (strip tag.name)))
          (tagLe strip)).mem_iff.mp h
      exact (List.mem_filter.mp hin).2
    rw [List.filter_eq_self.mpr hmem]
    exact List.mergeSort_of_sorted
      (List.sorted_mergeSort (tagLe_trans strip) (tagLe_total strip) _)
  · exact (List.sorted_mergeSort (tagLe_trans strip) (tagLe_total strip) _).imp
      (fun hab => (tagLe_iff_ge strip _ _).mp hab)

/-- C9: `getScopedCommits` keeps exactly the commits whose message starts
with one of the conventional-commit types, followed by one of the
requested scopes in parentheses, a colon-space, and at least one
word-or-space character — logical OR across the requested scopes. The
scope is spliced into the regex unescaped, so the characterization is
stated for scopes free of regex metacharacters, where the spliced scope
is matched literally. -/
theorem getScopedCommits_spec (commits : List Commit) (scopes : List Str) (c : Commit)
    (_hscopes : ∀ s ∈ scopes, regexLiteral s = true) :
    c ∈ getScopedCommits commits scopes ↔
      c ∈ commits ∧ ∃ scope ∈ scopes, ∃ t ∈ scopeTypes, ∃ ch rest,
        c.message = t ++ ("(".toList) ++ scope ++ ("): ".toList) ++ ch :: rest ∧
        isWordSpace ch = true := by
  unfold getScopedCommits
  rw [List.mem_filter, List.any_eq_true]
  constructor
  · rintro ⟨hc, s, hs, hm⟩
    exact ⟨hc, s, hs, scopeRegexMatch_iff.mp hm⟩
  · rintro ⟨hc, s, hs, hrest⟩
    exact ⟨hc, s, hs, scopeRegexMatch_iff.mpr hrest⟩

/-- C9 witness: with commits `feat(api): x`, `fix(web): y`, `chore: z`
and the single scope `api`, only the first commit passes the filter. -/
theorem getScopedCommits_spec_witness :
    (∀ s ∈ [("api".toList)], regexLiteral s = true) ∧
    ((⟨"feat(api): x".toList, "h1".toList⟩ : Commit) ∈
        getScopedCommits exCommits [("api".toList)] ↔
      (⟨"feat(api): x".toList, "h1".toList⟩ : Commit) ∈ exCommits ∧
        ∃ scope ∈ [("api".toList)], ∃ t ∈ scopeTypes, ∃ ch rest,
          (⟨"feat(api): x".toList, "h1".toList⟩ : Commit).message =
            t ++ ("(".toList) ++ scope ++ ("): ".toList) ++ ch :: rest ∧
          isWordSpace ch = true) := by
  refine ⟨by decide, ?_⟩
  exact getScopedCommits_spec exCommits [("api".toList)]
    ⟨"feat(api): x".toList, "h1".toList⟩ (by decide)

/-- C1 counterexample: the rule string `feat:major:` is accepted (three
parts, release `major`) and its third part is explicitly given as the
empty string, yet no emitted rule carries that empty section — the code
computes `section || defaultRule?.section`, whose JavaScript falsiness
treats the explicit empty string as absent, so both variants instead
carry the default table's `Features` section. -/
theorem mapCustomReleaseRules_empty_section_counterexample :
    (("feat:major:".toList).splitOn ':' = ["feat".toList, "major".toList, []]
    ∧ ruleAccept ("feat:major:".toList) = true)
    ∧ (∀ ru ∈ mapCustomReleaseRules defaultChangelogRules ("feat:major:".toList),
        ru.sect ≠ some [] ∧ ru.sect = some ("Features".toList)) := by
  decide

/-- C1 (amended): every accepted custom rule expands to exactly two rules
in order — the breaking/major variant, then the literal variant — sharing
type and section; the section is the explicitly given third part when
nonempty, and otherwise (absent or empty) the default table's section
under the lowercased type; the overall output is the order-preserving
flattened concatenation over the accepted rules. -/
theorem mapCustomReleaseRules_expansion (table : RuleTable) (cfg : Str) :
    (∀ r ∈ cfg.splitOn ',', ruleAccept r = true →
      ∃ t rel rest, r.splitOn ':' = t :: rel :: rest ∧ rel ∈ defaultReleaseTypes ∧
        expandRule table r =
          [⟨t, "major".toList, claimSect table t rest, some true⟩,
           ⟨t, rel, claimSect table t rest, some false⟩])
    ∧ mapCustomReleaseRules table cfg =
        ((cfg.splitOn ',').filter ruleAccept).flatMap (expandRule table) := by
  refine ⟨?_, mapCustomReleaseRules_flatMap table cfg⟩
  intro r _ hacc
  obtain ⟨t, rel, rest, hsp, hmem⟩ := ruleAccept_iff.mp hacc
  refine ⟨t, rel, rest, hsp, hmem, ?_⟩
  rw [expandRule_eq table r hsp, jsOrStr_eq_claimSect]

/-- C1 witness: the custom rule `build:patch` is accepted and expands to
the breaking/major variant followed by the literal patch variant, both
without a section (`build` has no default entry). -/
theorem mapCustomReleaseRules_expansion_witness :
    ruleAccept ("build:patch".toList) = true ∧
    mapCustomReleaseRules defaultChangelogRules ("build:patch".toList) =
      [⟨"build".toList, "major".toList, none, some true⟩,
       ⟨"build".toList, "patch".toList, none, some false⟩] := by
  refine ⟨by decide, ?_⟩
  rw [(mapCustomReleaseRules_expansion defaultChangelogRules ("build:patch".toList)).2]
  decide

/-- C2: the merge starts from the default table and overlays each
expanded rule keyed by its exact `type` with last-writer-wins semantics;
on the expanded output of `mapCustomReleaseRules` the surviving entry for
a type always is a literal variant (`breaking = false`), because the
literal variant is emitted second within each pair; the returned list
contains exactly the merged table's entries whose section is truthy. -/
theorem mergeWithDefault_spec (table : RuleTable) (rules : List ReleaseRule)
    (cfg : Str) (k : Str) :
    (lookupTable (mergeTable table rules) k =
      match (rules.filter (fun ru => ru.type = k)).getLast? with
      | some ru => some ru
      | none => lookupTable table k)
    ∧ (∀ ru, ru ∈ mergeWithDefaultChangelogRules table rules ↔
        ru ∈ tableValues (mergeTable table rules) ∧ truthySect ru.sect = true)
    ∧ (∀ r₀,
        lookupTable (mergeTable table (mapCustomReleaseRules table cfg)) k = some r₀ →
        (∃ ru ∈ mapCustomReleaseRules table cfg, ru.type = k) →
        r₀.breaking = some false) := by
  refine ⟨mergeTable_lookup table rules k, ?_, ?_⟩
  · intro ru
    unfold mergeWithDefaultChangelogRules
    exact List.mem_filter
  · intro r₀ hl hex
    rw [mergeTable_lookup] at hl
    cases hq : ((mapCustomReleaseRules table cfg).filter (fun ru => ru.type = k)).getLast? with
    | some x =>
      rw [hq] at hl
      have hx : x = r₀ := Option.some.inj hl
      rw [mapCustomReleaseRules_flatMap] at hq
      exact hx ▸ flatMap_expand_filter_getLast table k _ x hq
    | none =>
      obtain ⟨ru, hru, hty⟩ := hex
      have hmem : ru ∈ (mapCustomReleaseRules table cfg).filter (fun ru => ru.type = k) :=
        List.mem_filter.mpr ⟨hru, by simp [hty]⟩
      cases hfil : (mapCustomReleaseRules table cfg).filter (fun ru => ru.type = k) with
      | nil => rw [hfil] at hmem; exact absurd hmem (List.not_mem_nil ru)
      | cons a as => rw [hfil] at hq; exact absurd hq (getLast?_cons_ne_none a as)

/-- C2 witness: merging the expansion of `feat:patch` leaves the literal
patch variant (`breaking = false`) as the entry for `feat`. -/
theorem mergeWithDefault_spec_witness :
    (∃ ru ∈ mapCustomReleaseRules defaultChangelogRules ("feat:patch".toList),
        ru.type = "feat".toList) ∧
    (⟨"feat".toList, "patch".toList, some ("Features".toList), some false⟩ :
        ReleaseRule).breaking = some false := by
  refine ⟨by decide, ?_⟩
  exact (mergeWithDefault_spec defaultChangelogRules [] ("feat:patch".toList)
    ("feat".toList)).2.2 _ (by decide) (by decide)

/-- C3 (code bug): the source guards the section debug diagnostics with
`customReleaseRule.length !== 3` — the character count of the whole rule
string — instead of the number of `:`-separated parts. The two-part rule
`a:b` (string length exactly 3) gets no debug diagnostic at all, while
the three-part rule `feat:minor:Stuff` — which does mention a section —
does get the "doesn't mention the section" debug pair. -/
theorem ruleLogs_section_debug_uses_string_length :
    ((("a:b".toList).splitOn ':').length = 2
      ∧ (ruleLogs defaultChangelogRules ("a:b".toList)).all
          (fun m => !(m.isDebug)) = true)
    ∧ ((("feat:minor:Stuff".toList).splitOn ':').length = 3
      ∧ LogMsg.debugNoSection ("feat:minor:Stuff".toList) ∈
          ruleLogs defaultChangelogRules ("feat:minor:Stuff".toList)) := by
  decide

theorem ruleLogs_eq_of_splitOn {table : RuleTable} {r t rel : Str}
    {rest : List Str} (hsp : r.splitOn ':' = t :: rel :: rest) :
    ruleLogs table r =
      (if r.length ≠ 3 then
        [LogMsg.debugNoSection r,
         match lookupTable table (lowerStr t) with
         | some dr => LogMsg.debugDefaultSection dr.sect
         | none => LogMsg.debugNotIncluded]
      else []) ++
      (if defaultReleaseTypes.contains rel then []
       else [LogMsg.warnInvalidReleaseType rel]) := by
  unfold ruleLogs
  rw [hsp]

/-- C4: a rule with fewer than two parts is rejected with the
invalid-definition warning, a rule whose release part is not in the
allowed release-type list is rejected with the invalid-release-type
warning; rejected rules never pass the filter and therefore contribute no
entries, while the output and the diagnostics both decompose rule by rule
over the whole split input — processing always covers every rule and
never aborts. -/
theorem mapCustomReleaseRules_rejects (table : RuleTable) (cfg : Str) (r : Str)
    (_hr : r ∈ cfg.splitOn ',') :
    ((r.splitOn ':').length < 2 →
      ruleAccept r = false ∧ LogMsg.warnInvalidDefinition r ∈ ruleLogs table r)
    ∧ (∀ t rel rest, r.splitOn ':' = t :: rel :: rest → rel ∉ defaultReleaseTypes →
        ruleAccept r = false ∧ LogMsg.warnInvalidReleaseType rel ∈ ruleLogs table r)
    ∧ (ruleAccept r = false → r ∉ (cfg.splitOn ',').filter ruleAccept)
    ∧ mapCustomReleaseRules table cfg =
        ((cfg.splitOn ',').filter ruleAccept).flatMap (expandRule table)
    ∧ customRuleLogs table cfg = (cfg.splitOn ',').flatMap (ruleLogs table) := by
  refine ⟨?_, ?_, ?_, mapCustomReleaseRules_flatMap table cfg, rfl⟩
  · intro hlen
    cases hsp : r.splitOn ':' with
    | nil =>
      constructor
      · unfold ruleAccept; rw [hsp]
      · unfold ruleLogs; rw [hsp]; exact List.mem_singleton.mpr rfl
    | cons t tl =>
      cases tl with
      | nil =>
        constructor
        · unfold ruleAccept; rw [hsp]
        · unfold ruleLogs; rw [hsp]; exact List.mem_singleton.mpr rfl
      | cons rel rest =>
        exfalso
        rw [hsp] at hlen
        simp only [List.length_cons] at hlen
        omega
  · intro t rel rest hsp hrel
    constructor
    · cases hacc : ruleAccept r
      · rfl
      · obtain ⟨t', rel', rest', hsp', hmem⟩ := ruleAccept_iff.mp hacc
        rw [hsp] at hsp'
        obtain ⟨-, h2⟩ := List.cons_eq_cons.mp hsp'
        obtain ⟨hrr, -⟩ := List.cons_eq_cons.mp h2
        subst hrr
        exact absurd hmem hrel
    · have hc : defaultReleaseTypes.contains rel = false := by
        cases hcc : defaultReleaseTypes.contains rel
        · rfl
        · exact absurd (List.elem_iff.mp hcc) hrel
      rw [ruleLogs_eq_of_splitOn hsp, hc]
      simp
  · intro hacc hmem
    exact absurd (List.mem_filter.mp hmem).2 (by simp [hacc])

/-- C4 witness: in the configuration `x,a:nope,feat:minor` the one-part
rule `x` is rejected with the invalid-definition warning. -/
theorem mapCustomReleaseRules_rejects_witness :
    ("x".toList ∈ ("x,a:nope,feat:minor".toList).splitOn ',')
    ∧ (("x".toList).splitOn ':').length < 2
    ∧ ruleAccept ("x".toList) = false
    ∧ LogMsg.warnInvalidDefinition ("x".toList) ∈
        ruleLogs defaultChangelogRules ("x".toList) := by
  refine ⟨by decide, by decide, ?_, ?_⟩
  · exact ((mapCustomReleaseRules_rejects defaultChangelogRules
      ("x,a:nope,feat:minor".toList) ("x".toList) (by decide)).1 (by decide)).1
  · exact ((mapCustomReleaseRules_rejects defaultChangelogRules
      ("x,a:nope,feat:minor".toList) ("x".toList) (by decide)).1 (by decide)).2

/-- C10: the merge key is case-sensitive while the expander's section
lookup is case-insensitive: when every expanded custom rule's type
differs from a default key `k` (in particular when it differs only in
letter case), the default entry under `k` survives into the output (its
section being truthy), the surviving custom entry for each custom type
appears alongside it (its section being truthy), and a two-part custom
rule still resolves its section from the default table keyed by its
lowercased type. -/
theorem merge_key_case_sensitive (table : RuleTable) (cfg : Str) (k : Str)
    (d : ReleaseRule) (hmem : (k, d) ∈ table)
    (hne : ∀ ru ∈ mapCustomReleaseRules table cfg, ru.type ≠ k)
    (hd : truthySect d.sect = true) :
    d ∈ mergeWithDefaultChangelogRules table (mapCustomReleaseRules table cfg)
    ∧ (∀ τ r₀,
        ((mapCustomReleaseRules table cfg).filter
            (fun ru => ru.type = τ)).getLast? = some r₀ →
        truthySect r₀.sect = true →
        r₀ ∈ mergeWithDefaultChangelogRules table (mapCustomReleaseRules table cfg))
    ∧ (∀ r ∈ cfg.splitOn ',', ∀ t rel, r.splitOn ':' = [t, rel] →
        ∀ ru ∈ expandRule table r,
          ru.sect = (lookupTable table (lowerStr t)).bind (fun dr => dr.sect)) := by
  refine ⟨?_, ?_, ?_⟩
  · have hmem' : (k, d) ∈ mergeTable table (mapCustomReleaseRules table cfg) :=
      mergeTable_mem_preserved _ table hmem hne
    unfold mergeWithDefaultChangelogRules tableValues
    exact List.mem_filter.mpr ⟨List.mem_map_of_mem _ hmem', hd⟩
  · intro τ r₀ hlast htruthy
    have hl : lookupTable (mergeTable table (mapCustomReleaseRules table cfg)) τ =
        some r₀ := by
      rw [mergeTable_lookup, hlast]
    have hmem' := lookupTable_mem hl
    unfold mergeWithDefaultChangelogRules tableValues
    exact List.mem_filter.mpr ⟨List.mem_map_of_mem _ hmem', htruthy⟩
  · intro r _ t rel hsp ru hru
    rw [expandRule_eq table r hsp] at hru
    rcases List.mem_cons.mp hru with he | he2
    · rw [he]; rfl
    · rcases List.mem_cons.mp he2 with he | hnil
      · rw [he]; rfl
      · exact absurd hnil (List.not_mem_nil ru)

/-- C10 witness: the custom rule `Docs:minor` (type `Docs`) does not
replace the default `docs` entry — the default `Documentation` entry is
still in the merged output. -/
theorem merge_key_case_sensitive_witness :
    ((("docs".toList),
        (⟨"docs".toList, "patch".toList, some ("Documentation".toList), none⟩ :
          ReleaseRule)) ∈ defaultChangelogRules)
    ∧ (∀ ru ∈ mapCustomReleaseRules defaultChangelogRules ("Docs:minor".toList),
        ru.type ≠ "docs".toList)
    ∧ truthySect (some ("Documentation".toList)) = true
    ∧ (⟨"docs".toList, "patch".toList, some ("Documentation".toList), none⟩ :
        ReleaseRule) ∈
        mergeWithDefaultChangelogRules defaultChangelogRules
          (mapCustomReleaseRules defaultChangelogRules ("Docs:minor".toList)) := by
  refine ⟨by decide, by decide, by decide, ?_⟩
  exact (merge_key_case_sensitive defaultChangelogRules ("Docs:minor".toList)
    ("docs".toList) _ (by decide) (by decide) (by decide)).1
